import Mathlib

/-!
Verification of the rag-it ingestion-and-retrieval core.

The development shallowly embeds the code of `src/vectorstore.py`,
`src/ingest.py`, `src/query.py` and `src/embeddings.py`.  External
collaborators (the ChromaDB collection, the langchain text splitter, the
sentence-transformers model, the LLM, the document parsers) are not part of
the repository; where their behaviour decides a property they are modelled
from the specification's stated contract, and each such definition says so
in its doc comment.  Embedding vectors are modelled with integer entries:
the index-level properties under study do not depend on the numeric field.
-/

/-- The fixed metadata record attached to every stored chunk,
mirroring the dict built in `ingest_document`:
`{source, filename, chunk_index, total_chunks}`. -/
structure Metadata where
  source : String
  filename : String
  chunk_index : Nat
  total_chunks : Nat
deriving DecidableEq, Repr

/-- One stored record of the collection: id, document text, embedding
vector and metadata. -/
structure Entry where
  id : String
  text : String
  embedding : List Int
  metadata : Metadata
deriving DecidableEq, Repr

/-- The state of the ChromaDB collection: the stored entries. -/
abbrev Store := List Entry

def idsOf (s : Store) : List String := s.map (·.id)

/-- Modelled from the spec: ChromaDB `collection.add` overwrite semantics —
"adding an `id` that already exists overwrites it (last-write-wins)".
Any previous entry carrying the id is dropped and the new entry stored. -/
def upsert (s : Store) (e : Entry) : Store :=
  s.filter (fun x => x.id ≠ e.id) ++ [e]

def addEntries (s : Store) (es : List Entry) : Store := es.foldl upsert s

/-- Pair the four parallel argument lists of `collection.add` into entries. -/
def zipEntries : List String → List String → List (List Int) → List Metadata → List Entry
  | i :: is, d :: ds, e :: es, m :: ms => ⟨i, d, e, m⟩ :: zipEntries is ds es ms
  | _, _, _, _ => []

/-- Modelled from the spec: ChromaDB `collection.add` — "all four sequences
equal length" is required, and the write is an overwrite per id. -/
def collectionAdd (s : Store) (documents : List String) (embeddings : List (List Int))
    (metadatas : List Metadata) (ids : List String) : Except String Store :=
  if documents.length = embeddings.length ∧ documents.length = metadatas.length ∧
      documents.length = ids.length then
    .ok (addEntries s (zipEntries ids documents embeddings metadatas))
  else
    .error "unequal argument lengths"

/-- `VectorStore.__init__` creates the collection with this metadata
(`src/vectorstore.py`): only a human-readable description — no embedding
model identity and no dimension are recorded. -/
def collection_creation_metadata : List (String × String) :=
  [("description", ("Personal documents for RAG"))]

/-- `VectorStore.add_documents` (`src/vectorstore.py`): early-returns when
the documents list is empty, otherwise hands all four lists to
`collection.add`. -/
def VectorStore.add_documents (s : Store) (documents : List String)
    (embeddings : List (List Int)) (metadatas : List Metadata)
    (ids : List String) : Except String Store :=
  if documents.isEmpty then .ok s
  else collectionAdd s documents embeddings metadatas ids

/-- Squared Euclidean distance, the metric of the modelled collection
(the spec fixes "cosine or squared Euclidean"; ChromaDB's default space
is squared L2). -/
def sqDist (a b : List Int) : Int :=
  ((a.zip b).map (fun p => (p.1 - p.2) * (p.1 - p.2))).sum

/-- Comparison of query-result triples `(text, metadata, distance)` by
ascending distance. -/
abbrev distLE (a b : String × Metadata × Int) : Prop := a.2.2 ≤ b.2.2

instance : IsTotal (String × Metadata × Int) distLE := ⟨fun a b => le_total a.2.2 b.2.2⟩

instance : IsTrans (String × Metadata × Int) distLE := ⟨fun _ _ _ h h2 => le_trans h h2⟩

/-- Modelled from the spec: ChromaDB `collection.query` — nearest entries by
ascending distance, optional pre-ranking equality filter on metadata source,
capped at the number of available entries ("`topK` exceeding available
entries returns all entries, never an error"). -/
def collectionQuery (s : Store) (query_embedding : List Int) (n_results : Nat)
    (whereSource : Option String) : List (String × Metadata × Int) :=
  let cands := match whereSource with
    | none => s
    | some src => s.filter (fun e => e.metadata.source = src)
  ((cands.map (fun e => (e.text, e.metadata, sqDist query_embedding e.embedding))).insertionSort
    distLE).take n_results

/-- `VectorStore.query` (`src/vectorstore.py`): builds the query parameters
(adding the `where` filter only when given) and forwards to
`collection.query`. -/
def VectorStore.query (s : Store) (query_embedding : List Int) (top_k : Nat)
    (whereSource : Option String) : List (String × Metadata × Int) :=
  collectionQuery s query_embedding top_k whereSource

/-- `VectorStore.delete_by_source` (`src/vectorstore.py`): fetches the ids
of entries whose metadata source equals `source`, deletes those ids when
there are any, otherwise logs a zero outcome.  The returned number models
the reported deletion count. -/
def VectorStore.delete_by_source (s : Store) (source : String) : Store × Nat :=
  let matchedIds := (s.filter (fun e => e.metadata.source = source)).map (·.id)
  if matchedIds.isEmpty then (s, 0)
  else (s.filter (fun e => e.id ∉ matchedIds), matchedIds.length)

/-- C10: adding an empty document list leaves the store unchanged and
raises nothing, whatever the other three arguments hold. -/
theorem add_documents_empty_noop (s : Store) (embeddings : List (List Int))
    (metadatas : List Metadata) (ids : List String) :
    VectorStore.add_documents s [] embeddings metadatas ids = .ok s := by
  simp [VectorStore.add_documents]

/-- Concrete fixtures used by witnesses. -/
def wEntryA : Entry := ⟨"a_0", "Alpha", [0, 0], ⟨"a.txt", "a.txt", 0, 1⟩⟩

def wEntryB : Entry := ⟨"b_0", "Bravo", [3, 4], ⟨"b.txt", "b.txt", 0, 1⟩⟩

def wStore : Store := [wEntryA, wEntryB]

/-- C2: for every index state and query vector, `query` returns a
distance-ascending sequence of `(text, metadata, distance)` entries whose
length is `min topK count`; `topK` beyond the stored count returns all
entries and the empty index yields the empty result, never an error. -/
theorem query_bounds_and_sorted (s : Store) (query_embedding : List Int) (top_k : Nat) :
    (VectorStore.query s query_embedding top_k none).length = min top_k s.length
    ∧ List.Sorted distLE (VectorStore.query s query_embedding top_k none)
    ∧ (s = [] → VectorStore.query s query_embedding top_k none = [])
    ∧ (s.length ≤ top_k →
        (VectorStore.query s query_embedding top_k none).length = s.length) := by
  have hlen : (VectorStore.query s query_embedding top_k none).length = min top_k s.length := by
    simp only [VectorStore.query, collectionQuery]
    rw [List.length_take, (List.perm_insertionSort distLE _).length_eq, List.length_map]
  refine ⟨hlen, ?_, ?_, ?_⟩
  · exact List.Pairwise.sublist (List.take_sublist _ _)
      (List.sorted_insertionSort distLE _)
  · intro hs
    subst hs
    simp [VectorStore.query, collectionQuery]
  · intro hle
    rw [hlen]
    omega

/-- C3: `delete_by_source` removes exactly the entries whose metadata
source equals the argument, reports their number, and is a no-op
reporting zero when nothing matches. -/
theorem delete_by_source_exact (s : Store) (source : String)
    (hids : (idsOf s).Nodup) :
    (VectorStore.delete_by_source s source).1
        = s.filter (fun e => e.metadata.source ≠ source)
    ∧ (VectorStore.delete_by_source s source).2
        = (s.filter (fun e => e.metadata.source = source)).length
    ∧ ((∀ e ∈ s, e.metadata.source ≠ source) →
        VectorStore.delete_by_source s source = (s, 0)) := by
  have hnoop : (∀ e ∈ s, e.metadata.source ≠ source) →
      VectorStore.delete_by_source s source = (s, 0) := by
    intro hall
    have hm : s.filter (fun e => e.metadata.source = source) = [] := by
      rw [List.filter_eq_nil_iff]
      intro e he
      simpa using hall e he
    simp [VectorStore.delete_by_source, hm]
  by_cases hempty :
      ((s.filter (fun e => e.metadata.source = source)).map (·.id)).isEmpty
  · have hm : s.filter (fun e => e.metadata.source = source) = [] := by
      rcases hx : s.filter (fun e => e.metadata.source = source) with _ | ⟨a, l⟩
      · exact hx
      · rw [hx] at hempty
        simp [List.isEmpty] at hempty
    have hall : ∀ e ∈ s, e.metadata.source ≠ source := by
      intro e he hsrc
      have : e ∈ s.filter (fun e => e.metadata.source = source) := by
        rw [List.mem_filter]
        exact ⟨he, by simpa using hsrc⟩
      rw [hm] at this
      simp at this
    refine ⟨?_, ?_, hnoop⟩
    · rw [hnoop hall]
      symm
      rw [List.filter_eq_self]
      intro e he
      simpa using hall e he
    · rw [hnoop hall, hm]
      rfl
  · have hdel : VectorStore.delete_by_source s source =
        (s.filter (fun e =>
            e.id ∉ (s.filter (fun x => x.metadata.source = source)).map (·.id)),
         ((s.filter (fun x => x.metadata.source = source)).map (·.id)).length) := by
      simp only [VectorStore.delete_by_source]
      rw [if_neg (by simpa using hempty)]
    refine ⟨?_, ?_, hnoop⟩
    · rw [hdel]
      apply List.filter_congr
      intro e he
      rw [decide_eq_decide]
      constructor
      · intro hnotin hsrc
        exact hnotin (List.mem_map.mpr
          ⟨e, List.mem_filter.mpr ⟨he, by simpa using hsrc⟩, rfl⟩)
      · intro hne hin
        rcases List.mem_map.mp hin with ⟨f, hf, hfid⟩
        have hfs := List.mem_filter.mp hf
        have : f = e := List.inj_on_of_nodup_map hids hfs.1 he hfid
        rw [this] at hfs
        exact hne (by simpa using hfs.2)
    · rw [hdel]
      simp

theorem delete_by_source_exact_witness :
    (idsOf wStore).Nodup
    ∧ ((VectorStore.delete_by_source wStore "a.txt").1
          = wStore.filter (fun e => e.metadata.source ≠ "a.txt")
        ∧ (VectorStore.delete_by_source wStore "a.txt").2
          = (wStore.filter (fun e => e.metadata.source = "a.txt")).length
        ∧ ((∀ e ∈ wStore, e.metadata.source ≠ "a.txt") →
            VectorStore.delete_by_source wStore "a.txt" = (wStore, 0))) :=
  ⟨by decide, delete_by_source_exact wStore "a.txt" (by decide)⟩

theorem query_bounds_and_sorted_witness :
    (VectorStore.query wStore [0, 0] 5 none).length = min 5 wStore.length
    ∧ List.Sorted distLE (VectorStore.query wStore [0, 0] 5 none)
    ∧ (wStore = [] → VectorStore.query wStore [0, 0] 5 none = [])
    ∧ (wStore.length ≤ 5 →
        (VectorStore.query wStore [0, 0] 5 none).length = wStore.length) :=
  query_bounds_and_sorted wStore [0, 0] 5

/-- C9 (evidence for the divergence): the collection is created with a
description as its only metadata — no model identity, no dimension — and
`add_documents`/`query` accept embeddings of any dimension without any
`DimensionMismatchError`: a 3-dimensional vector is stored into an index
holding 2-dimensional vectors, and a 1-dimensional query runs against it. -/
theorem no_dimension_or_model_validation :
    collection_creation_metadata.map Prod.fst = ["description"]
    ∧ VectorStore.add_documents wStore ["Mixed"] [[1, 2, 3]]
        [⟨"c.txt", "c.txt", 0, 1⟩] ["c_0"]
      = .ok [wEntryA, wEntryB, ⟨"c_0", "Mixed", [1, 2, 3], ⟨"c.txt", "c.txt", 0, 1⟩⟩]
    ∧ (VectorStore.query
        [wEntryA, wEntryB, ⟨"c_0", "Mixed", [1, 2, 3], ⟨"c.txt", "c.txt", 0, 1⟩⟩]
        [7] 3 none).length = 3 := by
  refine ⟨rfl, ?_, ?_⟩ <;> rfl

/-- Find the first occurrence of the (non-empty) separator in a character
list: returns the piece up to and including the separator, and the rest. -/
def breakOnSep (sep : List Char) : List Char → Option (List Char × List Char)
  | [] => none
  | c :: xs =>
    if sep.isPrefixOf (c :: xs) then some (sep, (c :: xs).drop sep.length)
    else
      match breakOnSep sep xs with
      | some (p, r) => some (c :: p, r)
      | none => none

/-- Split on every occurrence of a separator, keeping the separator attached
to the preceding piece so that concatenation restores the input.  The fuel
argument (instantiated with the input length) keeps the recursion
structural. -/
def splitOnSepFuel (sep : List Char) : Nat → List Char → List (List Char)
  | 0, xs => if xs.isEmpty then [] else [xs]
  | fuel + 1, xs =>
    match breakOnSep sep xs with
    | some (p, r) => p :: splitOnSepFuel sep fuel r
    | none => if xs.isEmpty then [] else [xs]

def splitOnSep (sep : List Char) (xs : List Char) : List (List Char) :=
  splitOnSepFuel sep xs.length xs

/-- The separator hierarchy of `chunk_text` (`src/ingest.py`):
paragraphs, lines, sentences, words; the final raw-character level is the
base case of `splitUnitsHier`. -/
def SEPARATORS : List (List Char) :=
  [['\n', '\n'], ['\n'], ['.', ' '], [' ']]

/-- Modelled from the spec: the splitter's hierarchical pass —
"hierarchically split on paragraph, then sentence, then word, then
raw-character boundaries until all units are ≤ N". -/
def splitUnitsHier (N : Nat) : List (List Char) → List Char → List (List Char)
  | [], xs => xs.map (fun c => [c])
  | sep :: rest, xs =>
    (splitOnSep sep xs).flatMap
      (fun p => if p.length ≤ N then [p] else splitUnitsHier N rest p)

def unitsLen (l : List (List Char)) : Nat := (l.map List.length).sum

/-- Modelled from the spec: when a chunk closes, the units kept as overlap
for the next chunk — the trailing units totalling at most `O` characters
that still leave room for the unit that did not fit. -/
def dropUnits (O N newLen : Nat) : List (List Char) → List (List Char)
  | [] => []
  | u :: rest =>
    if O < unitsLen (u :: rest) ∨ N < unitsLen (u :: rest) + newLen
    then dropUnits O N newLen rest
    else u :: rest

/-- Modelled from the spec: greedy packing of units into chunks — "greedily
pack units into a chunk until the next unit would exceed N; start the next
chunk by re-including the trailing ~O characters of the previous chunk".
Each emitted pair is (overlap length, chunk characters); a trailing
accumulator consisting only of overlap is not emitted. -/
def packAux (N O : Nat) : List (List Char) → List (List Char) → Nat → List (Nat × List Char)
  | [], cur, ov => if ov < unitsLen cur then [(ov, cur.flatten)] else []
  | u :: us, cur, ov =>
    if cur ≠ [] ∧ N < unitsLen cur + u.length then
      (ov, cur.flatten) ::
        packAux N O us (dropUnits O N u.length cur ++ [u])
          (unitsLen (dropUnits O N u.length cur))
    else
      packAux N O us (cur ++ [u]) ov

/-- The chunks of a text together with each chunk's overlap length. -/
def chunkPairs (text : String) (chunk_size chunk_overlap : Nat) : List (Nat × List Char) :=
  packAux chunk_size chunk_overlap (splitUnitsHier chunk_size SEPARATORS text.data) [] 0

/-- `chunk_text` (`src/ingest.py`), with the langchain
RecursiveCharacterTextSplitter modelled from the spec as above. -/
def chunk_text (text : String) (chunk_size chunk_overlap : Nat) : List String :=
  (chunkPairs text chunk_size chunk_overlap).map (fun p => String.mk p.2)

/-- Remove each chunk's leading overlap and concatenate. -/
def dropOverlaps (l : List (Nat × List Char)) : List Char :=
  (l.map (fun p => p.2.drop p.1)).flatten

theorem breakOnSep_some (sep : List Char) (hsep : sep ≠ []) :
    ∀ xs p r, breakOnSep sep xs = some (p, r) → p ++ r = xs ∧ r.length < xs.length := by
  intro xs
  induction xs with
  | nil => intro p r h; simp [breakOnSep] at h
  | cons c xs ih =>
    intro p r h
    rw [breakOnSep] at h
    by_cases hpre : sep.isPrefixOf (c :: xs)
    · rw [if_pos hpre] at h
      obtain ⟨t, ht⟩ := List.isPrefixOf_iff_prefix.mp hpre
      simp only [Option.some.injEq, Prod.mk.injEq] at h
      obtain ⟨hp, hr⟩ := h
      subst hp hr
      have hdrop : (c :: xs).drop sep.length = t := by
        rw [← ht, List.drop_left]
      rw [hdrop]
      refine ⟨ht, ?_⟩
      have hlen : (c :: xs).length = sep.length + t.length := by
        rw [← ht, List.length_append]
      have hpos : 0 < sep.length := List.length_pos.mpr hsep
      omega
    · rw [if_neg hpre] at h
      cases hb : breakOnSep sep xs with
      | none => rw [hb] at h; exact absurd h (by simp)
      | some pr =>
        obtain ⟨p', r'⟩ := pr
        rw [hb] at h
        simp only [Option.some.injEq, Prod.mk.injEq] at h
        obtain ⟨hp, hr⟩ := h
        obtain ⟨hpr, hlen⟩ := ih p' r' hb
        subst hp hr
        constructor
        · rw [List.cons_append, hpr]
        · simpa using Nat.lt_succ_of_lt hlen

theorem splitOnSepFuel_flatten (sep : List Char) (hsep : sep ≠ []) :
    ∀ fuel xs, xs.length ≤ fuel → (splitOnSepFuel sep fuel xs).flatten = xs := by
  intro fuel
  induction fuel with
  | zero =>
    intro xs hle
    have : xs = [] := List.length_eq_zero.mp (Nat.le_zero.mp hle)
    subst this
    rfl
  | succ fuel ih =>
    intro xs hle
    rw [splitOnSepFuel]
    cases hb : breakOnSep sep xs with
    | none =>
      by_cases hxs : xs.isEmpty
      · rw [if_pos hxs]
        rw [List.isEmpty_iff] at hxs
        simp [hxs]
      · rw [if_neg hxs]
        simp
    | some pr =>
      obtain ⟨p, r⟩ := pr
      obtain ⟨hpr, hlen⟩ := breakOnSep_some sep hsep xs p r hb
      rw [List.flatten_cons, ih r (by omega), hpr]

theorem splitOnSep_flatten (sep : List Char) (hsep : sep ≠ []) (xs : List Char) :
    (splitOnSep sep xs).flatten = xs :=
  splitOnSepFuel_flatten sep hsep xs.length xs le_rfl

theorem flatten_flatMap_of_flatten_eq {α : Type} (ps : List (List α))
    (f : List α → List (List α)) (hf : ∀ p ∈ ps, (f p).flatten = p) :
    (ps.flatMap f).flatten = ps.flatten := by
  induction ps with
  | nil => rfl
  | cons p ps ih =>
    rw [List.flatMap_cons, List.flatten_append, List.flatten_cons,
      hf p (List.mem_cons_self p ps), ih (fun q hq => hf q (List.mem_cons_of_mem p hq))]

theorem flatten_map_singleton {α : Type} (xs : List α) :
    (xs.map (fun c => [c])).flatten = xs := by
  induction xs with
  | nil => rfl
  | cons c xs ih => simp [ih]

theorem flatten_splitUnitsHier (N : Nat) :
    ∀ seps, (∀ sep ∈ seps, sep ≠ []) →
      ∀ xs, (splitUnitsHier N seps xs).flatten = xs := by
  intro seps
  induction seps with
  | nil =>
    intro _ xs
    rw [splitUnitsHier]
    exact flatten_map_singleton xs
  | cons sep rest ih =>
    intro hne xs
    rw [splitUnitsHier]
    rw [flatten_flatMap_of_flatten_eq]
    · exact splitOnSep_flatten sep (hne sep (List.mem_cons_self sep rest)) xs
    · intro p _
      by_cases hlen : p.length ≤ N
      · rw [if_pos hlen]
        simp
      · rw [if_neg hlen]
        exact ih (fun q hq => hne q (List.mem_cons_of_mem sep hq)) p

theorem splitUnitsHier_length_le (N : Nat) (hN : 1 ≤ N) :
    ∀ seps xs u, u ∈ splitUnitsHier N seps xs → u.length ≤ N := by
  intro seps
  induction seps with
  | nil =>
    intro xs u hu
    rw [splitUnitsHier] at hu
    obtain ⟨c, _, rfl⟩ := List.mem_map.mp hu
    simpa using hN
  | cons sep rest ih =>
    intro xs u hu
    rw [splitUnitsHier] at hu
    obtain ⟨p, _, hu⟩ := List.mem_flatMap.mp hu
    by_cases hlen : p.length ≤ N
    · rw [if_pos hlen] at hu
      rw [List.mem_singleton.mp hu]
      exact hlen
    · rw [if_neg hlen] at hu
      exact ih p u hu

theorem unitsLen_nil : unitsLen [] = 0 := rfl

theorem unitsLen_cons (u : List Char) (l : List (List Char)) :
    unitsLen (u :: l) = u.length + unitsLen l := by
  simp [unitsLen]

theorem unitsLen_append (a b : List (List Char)) :
    unitsLen (a ++ b) = unitsLen a + unitsLen b := by
  simp [unitsLen]

theorem unitsLen_eq_length_flatten (l : List (List Char)) :
    unitsLen l = l.flatten.length := by
  rw [unitsLen, List.length_flatten]

theorem dropUnits_spec (O N k : Nat) :
    ∀ l, dropUnits O N k l = []
      ∨ (unitsLen (dropUnits O N k l) ≤ O ∧ unitsLen (dropUnits O N k l) + k ≤ N) := by
  intro l
  induction l with
  | nil => left; rfl
  | cons u rest ih =>
    rw [dropUnits]
    by_cases h : O < unitsLen (u :: rest) ∨ N < unitsLen (u :: rest) + k
    · rw [if_pos h]
      exact ih
    · rw [if_neg h]
      push_neg at h
      exact Or.inr ⟨h.1, h.2⟩

theorem dropOverlaps_nil : dropOverlaps [] = [] := rfl

theorem dropOverlaps_cons (p : Nat × List Char) (l : List (Nat × List Char)) :
    dropOverlaps (p :: l) = p.2.drop p.1 ++ dropOverlaps l := by
  simp [dropOverlaps]

theorem packAux_dropOverlaps (N O : Nat) :
    ∀ us cur ov, ov ≤ unitsLen cur →
      dropOverlaps (packAux N O us cur ov) = cur.flatten.drop ov ++ us.flatten := by
  intro us
  induction us with
  | nil =>
    intro cur ov hov
    rw [packAux]
    by_cases h : ov < unitsLen cur
    · rw [if_pos h, dropOverlaps_cons, dropOverlaps_nil]
      simp
    · rw [if_neg h, dropOverlaps_nil]
      have hdrop : cur.flatten.drop ov = [] := by
        apply List.drop_eq_nil_of_le
        rw [← unitsLen_eq_length_flatten]
        omega
      simp [hdrop]
  | cons u us ih =>
    intro cur ov hov
    rw [packAux]
    by_cases hcond : cur ≠ [] ∧ N < unitsLen cur + u.length
    · rw [if_pos hcond, dropOverlaps_cons]
      have hov2 : unitsLen (dropUnits O N u.length cur)
          ≤ unitsLen (dropUnits O N u.length cur ++ [u]) := by
        rw [unitsLen_append]
        omega
      rw [ih _ _ hov2]
      have hflat : (dropUnits O N u.length cur ++ [u]).flatten
          = (dropUnits O N u.length cur).flatten ++ u := by
        simp
      rw [hflat]
      have hdrop : ((dropUnits O N u.length cur).flatten ++ u).drop
          (unitsLen (dropUnits O N u.length cur)) = u := by
        rw [unitsLen_eq_length_flatten, List.drop_left]
      rw [hdrop, List.flatten_cons]
    · rw [if_neg hcond]
      have hov2 : ov ≤ unitsLen (cur ++ [u]) := by
        rw [unitsLen_append]
        omega
      rw [ih _ _ hov2]
      have hflat : (cur ++ [u]).flatten = cur.flatten ++ u := by
        simp
      rw [hflat, List.drop_append_eq_append_drop]
      have hz : ov - cur.flatten.length = 0 := by
        rw [← unitsLen_eq_length_flatten]
        omega
      rw [hz, List.drop_zero, List.flatten_cons]
      simp

theorem packAux_chunk_le (N O : Nat) :
    ∀ us cur ov, (∀ u ∈ us, u.length ≤ N) → unitsLen cur ≤ N →
      ∀ p ∈ packAux N O us cur ov, p.2.length ≤ N := by
  intro us
  induction us with
  | nil =>
    intro cur ov _ hcur p hp
    rw [packAux] at hp
    by_cases h : ov < unitsLen cur
    · rw [if_pos h] at hp
      rw [List.mem_singleton.mp hp, ← unitsLen_eq_length_flatten]
      exact hcur
    · rw [if_neg h] at hp
      simp at hp
  | cons u us ih =>
    intro cur ov hus hcur p hp
    have huN : u.length ≤ N := hus u (List.mem_cons_self u us)
    have hus' : ∀ v ∈ us, v.length ≤ N := fun v hv => hus v (List.mem_cons_of_mem u hv)
    rw [packAux] at hp
    by_cases hcond : cur ≠ [] ∧ N < unitsLen cur + u.length
    · rw [if_pos hcond] at hp
      rcases List.mem_cons.mp hp with hhead | htail
      · rw [hhead]
        rw [← unitsLen_eq_length_flatten]
        exact hcur
      · refine ih _ _ hus' ?_ p htail
        rw [unitsLen_append]
        rcases dropUnits_spec O N u.length cur with hnil | hbound
        · rw [hnil, unitsLen_nil]
          simpa [unitsLen_cons, unitsLen_nil] using huN
        · simpa [unitsLen_cons, unitsLen_nil] using hbound.2
    · rw [if_neg hcond] at hp
      refine ih _ _ hus' ?_ p hp
      rw [unitsLen_append, unitsLen_cons, unitsLen_nil]
      push_neg at hcond
      by_cases hnil : cur = []
      · rw [hnil, unitsLen_nil]
        omega
      · have := hcond hnil
        omega

theorem packAux_small (N O : Nat) :
    ∀ us cur ov, unitsLen cur + unitsLen us ≤ N →
      packAux N O us cur ov =
        if ov < unitsLen cur + unitsLen us then [(ov, cur.flatten ++ us.flatten)] else [] := by
  intro us
  induction us with
  | nil =>
    intro cur ov h
    rw [packAux]
    simp [unitsLen_nil]
  | cons u us ih =>
    intro cur ov h
    rw [packAux]
    have hcond : ¬(cur ≠ [] ∧ N < unitsLen cur + u.length) := by
      rintro ⟨_, hlt⟩
      rw [unitsLen_cons] at h
      omega
    rw [if_neg hcond, ih (cur ++ [u]) ov
      (by rw [unitsLen_append, unitsLen_cons, unitsLen_nil]; rw [unitsLen_cons] at h; omega)]
    have harith : unitsLen (cur ++ [u]) + unitsLen us = unitsLen cur + unitsLen (u :: us) := by
      rw [unitsLen_append, unitsLen_cons, unitsLen_cons, unitsLen_nil]
      omega
    have hflat : (cur ++ [u]).flatten ++ us.flatten = cur.flatten ++ (u :: us).flatten := by
      simp
    rw [harith, hflat]

/-- C7: for every text and valid configuration `overlap < size`, removing
each chunk's leading overlap and concatenating restores the original text;
every chunk is at most `size` characters; a non-empty text of at most
`size` characters gives exactly one chunk carrying no overlap; the empty
text gives no chunks. -/
theorem chunk_text_properties (text : String) (N O : Nat) (hON : O < N) :
    dropOverlaps (chunkPairs text N O) = text.data
    ∧ (∀ p ∈ chunkPairs text N O, p.2.length ≤ N)
    ∧ (text.data ≠ [] → text.data.length ≤ N → chunkPairs text N O = [(0, text.data)])
    ∧ (text = "" → chunk_text text N O = []) := by
  have hseps : ∀ sep ∈ SEPARATORS, sep ≠ [] := by decide
  have hN : 1 ≤ N := by omega
  have hflat : (splitUnitsHier N SEPARATORS text.data).flatten = text.data :=
    flatten_splitUnitsHier N SEPARATORS hseps text.data
  refine ⟨?_, ?_, ?_, ?_⟩
  · rw [chunkPairs, packAux_dropOverlaps N O _ [] 0 le_rfl, hflat]
    rfl
  · intro p hp
    refine packAux_chunk_le N O _ [] 0 ?_ (by simp [unitsLen_nil]) p hp
    intro u hu
    exact splitUnitsHier_length_le N hN SEPARATORS text.data u hu
  · intro hne hlen
    rw [chunkPairs, packAux_small N O _ [] 0
      (by rw [unitsLen_nil, unitsLen_eq_length_flatten, hflat]; omega)]
    rw [unitsLen_nil, unitsLen_eq_length_flatten, hflat]
    have hpos : 0 < text.data.length := List.length_pos.mpr hne
    rw [if_pos (by omega)]
    rfl
  · intro hempty
    subst hempty
    rfl

theorem chunk_text_properties_witness :
    (1 : Nat) < 5 ∧
      (dropOverlaps (chunkPairs "ab cd" 5 1) = ("ab cd").data
      ∧ (∀ p ∈ chunkPairs "ab cd" 5 1, p.2.length ≤ 5)
      ∧ (("ab cd").data ≠ [] → ("ab cd").data.length ≤ 5 →
          chunkPairs "ab cd" 5 1 = [(0, ("ab cd").data)])
      ∧ ("ab cd" = "" → chunk_text "ab cd" 5 1 = [])) :=
  ⟨by decide, chunk_text_properties "ab cd" 5 1 (by decide)⟩

/-- Modelled from the spec: the segmenter's configuration validation —
"target size `N` characters, overlap `O` characters (`0 ≤ O < N`, else a
ConfigurationError)".  The source delegates splitting to the external
langchain `RecursiveCharacterTextSplitter`; the repository itself contains
no validation code, so the check is taken from the spec's contract.
Arguments are integers, as Python's are. -/
def splitter_config_check (chunk_size chunk_overlap : Int) : Except String Unit :=
  if 0 ≤ chunk_overlap ∧ chunk_overlap < chunk_size then .ok ()
  else .error "ConfigurationError: invalid chunk size/overlap"

/-- Construction of the splitter with configuration validation, then the
split itself: the `Except` models the raised ConfigurationError. -/
def chunk_text_checked (text : String) (chunk_size chunk_overlap : Int) :
    Except String (List String) :=
  match splitter_config_check chunk_size chunk_overlap with
  | .error e => .error e
  | .ok _ => .ok (chunk_text text chunk_size.toNat chunk_overlap.toNat)

/-- C8: the segmenter raises a ConfigurationError exactly when the pair
violates `0 ≤ O < N` — in particular when the overlap equals or exceeds the
size — and succeeds for every pair with `0 ≤ O < N`. -/
theorem splitter_config_validation (text : String) (chunk_size chunk_overlap : Int) :
    ((¬(0 ≤ chunk_overlap ∧ chunk_overlap < chunk_size)) ↔
      chunk_text_checked text chunk_size chunk_overlap
        = .error "ConfigurationError: invalid chunk size/overlap")
    ∧ ((0 ≤ chunk_overlap ∧ chunk_overlap < chunk_size) ↔
      chunk_text_checked text chunk_size chunk_overlap
        = .ok (chunk_text text chunk_size.toNat chunk_overlap.toNat)) := by
  rw [chunk_text_checked, splitter_config_check]
  by_cases h : 0 ≤ chunk_overlap ∧ chunk_overlap < chunk_size
  · rw [if_pos h]
    refine ⟨⟨fun hn => absurd h hn, fun he => by simp at he⟩, ⟨fun _ => rfl, fun _ => h⟩⟩
  · rw [if_neg h]
    refine ⟨⟨fun _ => rfl, fun _ => h⟩, ⟨fun hp => absurd hp h, fun he => by simp at he⟩⟩

/-- `config/settings.py`: characters per chunk. -/
def CHUNK_SIZE : Nat := 500

/-- `config/settings.py`: characters of overlap between chunks. -/
def CHUNK_OVERLAP : Nat := 50

/-- A document path as the ingestion code consumes it: the fields hold
`str(file_path)`, `file_path.name` and `file_path.stem` of a
`pathlib.Path`. -/
structure DocPath where
  path : String
  name : String
  stem : String
deriving DecidableEq, Repr

/-- `Embedder.embed_texts` (`src/embeddings.py`): batch encoding — one
vector per input text, produced by the model (here a parameter, since the
sentence-transformers model is an external collaborator; the spec fixes it
to be a deterministic function of the text). -/
def embed_texts (embed : String → List Int) (texts : List String) : List (List Int) :=
  texts.map embed

/-- The chunk ids built in `ingest_document` (`src/ingest.py`):
`{file_path.stem}_{i}` for each chunk index `i`. -/
def chunkIds (stem : String) (k : Nat) : List String :=
  (List.range k).map (fun i => stem ++ "_" ++ toString i)

/-- The chunk metadata dicts built in `ingest_document` (`src/ingest.py`). -/
def chunkMetadatas (doc : DocPath) (k : Nat) : List Metadata :=
  (List.range k).map (fun i => ⟨doc.path, doc.name, i, k⟩)

/-- The entries one successful `ingest_document` run stores for `doc`
with extracted text `text`. -/
def ingestEntries (embed : String → List Int) (doc : DocPath) (text : String) : List Entry :=
  zipEntries (chunkIds doc.stem (chunk_text text CHUNK_SIZE CHUNK_OVERLAP).length)
    (chunk_text text CHUNK_SIZE CHUNK_OVERLAP)
    (embed_texts embed (chunk_text text CHUNK_SIZE CHUNK_OVERLAP))
    (chunkMetadatas doc (chunk_text text CHUNK_SIZE CHUNK_OVERLAP).length)

/-- Python's `str.strip()`: remove leading and trailing whitespace. -/
def pyStrip (text : String) : String :=
  ⟨((text.data.dropWhile Char.isWhitespace).reverse.dropWhile
      Char.isWhitespace).reverse⟩

/-- `ingest_document` (`src/ingest.py`): parse, bail out returning 0 on a
parse failure or whitespace-only text or no chunks; otherwise chunk, embed,
build metadata and ids, delete the source's previous entries and add the
new ones.  The parser is the external parsing collaborator, passed as a
function; an `Except.error` models its raised exception. -/
def ingest_document (parse : DocPath → Except String String)
    (embed : String → List Int) (doc : DocPath) (s : Store) :
    Except String (Store × Nat) :=
  match parse doc with
  | .error _ => .ok (s, 0)
  | .ok text =>
    if pyStrip text = "" then .ok (s, 0)
    else if chunk_text text CHUNK_SIZE CHUNK_OVERLAP = [] then .ok (s, 0)
    else
      match VectorStore.add_documents (VectorStore.delete_by_source s doc.path).1
          (chunk_text text CHUNK_SIZE CHUNK_OVERLAP)
          (embed_texts embed (chunk_text text CHUNK_SIZE CHUNK_OVERLAP))
          (chunkMetadatas doc (chunk_text text CHUNK_SIZE CHUNK_OVERLAP).length)
          (chunkIds doc.stem (chunk_text text CHUNK_SIZE CHUNK_OVERLAP).length) with
      | .error e => .error e
      | .ok s2 => .ok (s2, (chunk_text text CHUNK_SIZE CHUNK_OVERLAP).length)

/-- The per-document loop of `ingest_all_documents` (`src/ingest.py`),
threading the store and the `successful` and `total_chunks` counters. -/
def ingestLoop (parse : DocPath → Except String String) (embed : String → List Int) :
    List DocPath → Store → Nat → Nat → Except String (Store × Nat × Nat)
  | [], s, successful, total => .ok (s, successful, total)
  | doc :: docs, s, successful, total =>
    match ingest_document parse embed doc s with
    | .error e => .error e
    | .ok (s2, n) =>
      ingestLoop parse embed docs s2
        (if 0 < n then successful + 1 else successful) (total + n)

/-- `ingest_all_documents` (`src/ingest.py`): early summary when no
documents were found, otherwise the loop; the result carries the final
store and the counts (documents found, documents processed, total chunks
stored). -/
def ingest_all_documents (parse : DocPath → Except String String)
    (embed : String → List Int) (documents : List DocPath) (s : Store) :
    Except String (Store × Nat × Nat × Nat) :=
  if documents.isEmpty then .ok (s, 0, 0, 0)
  else
    match ingestLoop parse embed documents s 0 0 with
    | .error e => .error e
    | .ok (s2, successful, total) => .ok (s2, documents.length, successful, total)

theorem idsOf_cons (a : Entry) (l : Store) : idsOf (a :: l) = a.id :: idsOf l := rfl

theorem addEntries_cons (t : Store) (a : Entry) (es : List Entry) :
    addEntries t (a :: es) = addEntries (upsert t a) es := rfl

theorem upsert_nil (a : Entry) : upsert [] a = [a] := rfl

theorem filter_notMem_nil (t : Store) :
    t.filter (fun e => e.id ∉ idsOf ([] : List Entry)) = t := by
  rw [List.filter_eq_self]
  intro e _
  simp [idsOf]

theorem mem_idsOf_of_mem {e : Entry} {s : Store} (h : e ∈ s) : e.id ∈ idsOf s :=
  List.mem_map.mpr ⟨e, h, rfl⟩

theorem addEntries_split :
    ∀ (es : List Entry) (t : Store),
      addEntries t es = t.filter (fun e => e.id ∉ idsOf es) ++ addEntries [] es := by
  intro es
  induction es with
  | nil =>
    intro t
    rw [show addEntries t [] = t from rfl, show addEntries [] [] = [] from rfl,
      filter_notMem_nil, List.append_nil]
  | cons a es ih =>
    intro t
    rw [addEntries_cons t a es, ih (upsert t a),
      addEntries_cons ([] : Store) a es, ih (upsert [] a), upsert_nil]
    rw [upsert, List.filter_append, List.filter_filter]
    rw [List.append_assoc]
    congr 1
    apply List.filter_congr
    intro e _
    rw [idsOf_cons]
    simp only [List.mem_cons, not_or, ne_eq]
    rw [Bool.decide_and, Bool.and_comm]

theorem mem_upsert (t : Store) (a e : Entry) (he : e ∈ upsert t a) : e ∈ t ∨ e = a := by
  rcases List.mem_append.mp he with hl | hr
  · exact Or.inl (List.mem_filter.mp hl).1
  · exact Or.inr (List.mem_singleton.mp hr)

theorem mem_addEntries :
    ∀ (es : List Entry) (t : Store) (e : Entry), e ∈ addEntries t es → e ∈ t ∨ e ∈ es := by
  intro es
  induction es with
  | nil => intro t e he; exact Or.inl he
  | cons a es ih =>
    intro t e he
    rcases ih (upsert t a) e he with hu | hes
    · rcases mem_upsert t a e hu with ht | ha
      · exact Or.inl ht
      · exact Or.inr (ha ▸ List.mem_cons_self a es)
    · exact Or.inr (List.mem_cons_of_mem a hes)

theorem mem_addEntries_of_not_mem_ids :
    ∀ (es : List Entry) (t : Store) (e : Entry),
      e ∈ t → e.id ∉ idsOf es → e ∈ addEntries t es := by
  intro es
  induction es with
  | nil => intro t e ht _; exact ht
  | cons a es ih =>
    intro t e ht hid
    rw [idsOf_cons] at hid
    have hne : e.id ≠ a.id := fun h => hid (h ▸ List.mem_cons_self a.id (idsOf es))
    have hid2 : e.id ∉ idsOf es := fun h => hid (List.mem_cons_of_mem a.id h)
    refine ih (upsert t a) e ?_ hid2
    exact List.mem_append.mpr (Or.inl (List.mem_filter.mpr ⟨ht, by simpa using hne⟩))

theorem idsOf_addEntries_nil :
    ∀ (es : List Entry) (i : String), i ∈ idsOf es ↔ i ∈ idsOf (addEntries [] es) := by
  intro es
  induction es with
  | nil => intro i; exact Iff.rfl
  | cons a es ih =>
    intro i
    rw [addEntries_cons ([] : Store) a es, upsert_nil, addEntries_split es [a]]
    by_cases ha : a.id ∈ idsOf es
    · have hfa : ([a] : Store).filter (fun e => e.id ∉ idsOf es) = [] := by
        rw [List.filter_eq_nil_iff]
        intro e he
        rw [List.mem_singleton.mp he]
        simpa using ha
      rw [hfa, List.nil_append, idsOf_cons, List.mem_cons]
      constructor
      · rintro (rfl | hi)
        · exact (ih a.id).mp ha
        · exact (ih i).mp hi
      · intro hi
        exact Or.inr ((ih i).mpr hi)
    · have hfa : ([a] : Store).filter (fun e => e.id ∉ idsOf es) = [a] := by
        rw [List.filter_eq_self]
        intro e he
        rw [List.mem_singleton.mp he]
        simpa using ha
      rw [hfa, List.singleton_append, idsOf_cons, List.mem_cons]
      rw [show idsOf (a :: addEntries [] es) = a.id :: idsOf (addEntries [] es) from rfl,
        List.mem_cons]
      constructor
      · rintro (rfl | hi)
        · exact Or.inl rfl
        · exact Or.inr ((ih i).mp hi)
      · rintro (rfl | hi)
        · exact Or.inl rfl
        · exact Or.inr ((ih i).mpr hi)

theorem addEntries_filter_ids (es : List Entry) (t : Store) (S : List String)
    (hS : ∀ x ∈ S, x ∈ idsOf es) :
    addEntries (t.filter (fun e => e.id ∉ S)) es = addEntries t es := by
  rw [addEntries_split es (t.filter (fun e => e.id ∉ S)), addEntries_split es t,
    List.filter_filter]
  congr 1
  apply List.filter_congr
  intro e _
  rw [← Bool.decide_and, decide_eq_decide]
  constructor
  · intro h
    exact h.1
  · intro h
    exact ⟨h, fun hs => h (hS e.id hs)⟩

theorem delete_removes_source (s : Store) (p : String) :
    ∀ e ∈ (VectorStore.delete_by_source s p).1, e.metadata.source ≠ p := by
  intro e he hsrc
  simp only [VectorStore.delete_by_source] at he
  by_cases hempty : ((s.filter (fun x => x.metadata.source = p)).map (·.id)).isEmpty
  · rw [if_pos hempty] at he
    have hmem : e ∈ s.filter (fun x => x.metadata.source = p) :=
      List.mem_filter.mpr ⟨he, by simpa using hsrc⟩
    rcases hx : s.filter (fun x => x.metadata.source = p) with _ | ⟨b, l⟩
    · rw [hx] at hmem
      simp at hmem
    · rw [hx] at hempty
      simp [List.isEmpty] at hempty
  · rw [if_neg hempty] at he
    obtain ⟨hes, hid⟩ := List.mem_filter.mp he
    have hmem : e ∈ s.filter (fun x => x.metadata.source = p) :=
      List.mem_filter.mpr ⟨hes, by simpa using hsrc⟩
    have : e.id ∈ (s.filter (fun x => x.metadata.source = p)).map (·.id) :=
      List.mem_map.mpr ⟨e, hmem, rfl⟩
    simp only [decide_eq_true_eq] at hid
    exact hid this

theorem sourceFilter_addEntries (p : String) (t : Store) (es : List Entry)
    (ht : ∀ e ∈ t, e.metadata.source ≠ p) (hes : ∀ e ∈ es, e.metadata.source = p) :
    (addEntries t es).filter (fun e => e.metadata.source = p) = addEntries [] es := by
  rw [addEntries_split es t, List.filter_append]
  have h1 : (t.filter (fun e => e.id ∉ idsOf es)).filter
      (fun e => e.metadata.source = p) = [] := by
    rw [List.filter_eq_nil_iff]
    intro e he
    have het : e ∈ t := (List.mem_filter.mp he).1
    simpa using ht e het
  have h2 : (addEntries [] es).filter (fun e => e.metadata.source = p)
      = addEntries [] es := by
    rw [List.filter_eq_self]
    intro e he
    rcases mem_addEntries es [] e he with h | h
    · exact absurd h (List.not_mem_nil e)
    · simpa using hes e h
  rw [h1, h2, List.nil_append]

theorem delete_by_source_addEntries (p : String) (t : Store) (es : List Entry)
    (ht : ∀ e ∈ t, e.metadata.source ≠ p) (hes : ∀ e ∈ es, e.metadata.source = p) :
    (VectorStore.delete_by_source (addEntries t es) p).1
      = t.filter (fun e => e.id ∉ idsOf es) := by
  simp only [VectorStore.delete_by_source]
  rw [sourceFilter_addEntries p t es ht hes]
  by_cases hempty : (idsOf (addEntries [] es)).isEmpty
  · rw [show (addEntries [] es).map (·.id) = idsOf (addEntries [] es) from rfl,
      if_pos hempty]
    have hids : idsOf es = [] := by
      rw [List.eq_nil_iff_forall_not_mem]
      intro i hi
      have := (idsOf_addEntries_nil es i).mp hi
      rw [List.isEmpty_iff] at hempty
      rw [hempty] at this
      simp at this
    have hesnil : es = [] := by
      cases es with
      | nil => rfl
      | cons a l => simp [idsOf_cons] at hids
    subst hesnil
    rw [show addEntries t [] = t from rfl, filter_notMem_nil]
  · rw [show (addEntries [] es).map (·.id) = idsOf (addEntries [] es) from rfl,
      if_neg hempty]
    rw [addEntries_split es t, List.filter_append]
    have hW : (addEntries [] es).filter
        (fun e => e.id ∉ idsOf (addEntries [] es)) = [] := by
      rw [List.filter_eq_nil_iff]
      intro e he
      simp only [decide_eq_true_eq, not_not]
      exact mem_idsOf_of_mem he
    rw [hW, List.append_nil, List.filter_filter]
    apply List.filter_congr
    intro e _
    rw [← Bool.decide_and, decide_eq_decide]
    constructor
    · intro h
      exact h.2
    · intro h
      exact ⟨fun hw => h ((idsOf_addEntries_nil es e.id).mpr hw), h⟩

theorem addEntries_delete_idem (p : String) (es : List Entry)
    (hes : ∀ e ∈ es, e.metadata.source = p) (t : Store) :
    addEntries
        (VectorStore.delete_by_source
          (addEntries (VectorStore.delete_by_source t p).1 es) p).1 es
      = addEntries (VectorStore.delete_by_source t p).1 es := by
  rw [delete_by_source_addEntries p (VectorStore.delete_by_source t p).1 es
    (delete_removes_source t p) hes]
  exact addEntries_filter_ids es (VectorStore.delete_by_source t p).1 (idsOf es)
    (fun x hx => hx)

theorem dropOverlaps_chunkPairs (text : String) (N O : Nat) :
    dropOverlaps (chunkPairs text N O) = text.data := by
  rw [chunkPairs, packAux_dropOverlaps N O _ [] 0 le_rfl,
    flatten_splitUnitsHier N SEPARATORS (by decide) text.data]
  rfl

theorem chunk_text_ne_nil (text : String) (h : text ≠ "") :
    chunk_text text CHUNK_SIZE CHUNK_OVERLAP ≠ [] := by
  intro hnil
  have hcp : chunkPairs text CHUNK_SIZE CHUNK_OVERLAP = [] := by
    rwa [chunk_text, List.map_eq_nil_iff] at hnil
  have hrec := dropOverlaps_chunkPairs text CHUNK_SIZE CHUNK_OVERLAP
  rw [hcp, dropOverlaps_nil] at hrec
  apply h
  cases text with
  | mk data =>
    rw [show (String.mk data).data = data from rfl] at hrec
    rw [← hrec]

theorem strip_ne_imp_ne_empty (text : String) (h : pyStrip text ≠ "") : text ≠ "" := by
  intro hempty
  subst hempty
  exact h (by decide)

theorem zipEntries_metadata_mem :
    ∀ (is : List String) (ds : List String) (vs : List (List Int)) (ms : List Metadata)
      (e : Entry), e ∈ zipEntries is ds vs ms → e.metadata ∈ ms := by
  intro is
  induction is with
  | nil => intro ds vs ms e he; simp [zipEntries] at he
  | cons i is ih =>
    intro ds vs ms e he
    cases ds with
    | nil => simp [zipEntries] at he
    | cons d ds =>
      cases vs with
      | nil => simp [zipEntries] at he
      | cons v vs =>
        cases ms with
        | nil => simp [zipEntries] at he
        | cons m ms =>
          rw [zipEntries] at he
          rcases List.mem_cons.mp he with rfl | htail
          · exact List.mem_cons_self m ms
          · exact List.mem_cons_of_mem m (ih ds vs ms e htail)

theorem zipEntries_id_mem :
    ∀ (is : List String) (ds : List String) (vs : List (List Int)) (ms : List Metadata)
      (e : Entry), e ∈ zipEntries is ds vs ms → e.id ∈ is := by
  intro is
  induction is with
  | nil => intro ds vs ms e he; simp [zipEntries] at he
  | cons i is ih =>
    intro ds vs ms e he
    cases ds with
    | nil => simp [zipEntries] at he
    | cons d ds =>
      cases vs with
      | nil => simp [zipEntries] at he
      | cons v vs =>
        cases ms with
        | nil => simp [zipEntries] at he
        | cons m ms =>
          rw [zipEntries] at he
          rcases List.mem_cons.mp he with rfl | htail
          · exact List.mem_cons_self i is
          · exact List.mem_cons_of_mem i (ih ds vs ms e htail)

theorem ingestEntries_source (embed : String → List Int) (doc : DocPath) (text : String) :
    ∀ e ∈ ingestEntries embed doc text, e.metadata.source = doc.path := by
  intro e he
  have hm := zipEntries_metadata_mem _ _ _ _ e he
  obtain ⟨i, _, hmeta⟩ := List.mem_map.mp hm
  rw [← hmeta]

theorem ingestEntries_id_shape (embed : String → List Int) (doc : DocPath) (text : String) :
    ∀ e ∈ ingestEntries embed doc text,
      ∃ i, i < (chunk_text text CHUNK_SIZE CHUNK_OVERLAP).length
        ∧ e.id = doc.stem ++ "_" ++ toString i := by
  intro e he
  have hm := zipEntries_id_mem _ _ _ _ e he
  obtain ⟨i, hi, hid⟩ := List.mem_map.mp hm
  exact ⟨i, List.mem_range.mp hi, hid.symm⟩

theorem ingest_document_run (parse : DocPath → Except String String)
    (embed : String → List Int) (doc : DocPath) (s : Store) (text : String)
    (hp : parse doc = .ok text) (htrim : ¬(pyStrip text = ""))
    (hch : chunk_text text CHUNK_SIZE CHUNK_OVERLAP ≠ []) :
    ingest_document parse embed doc s =
      .ok (addEntries (VectorStore.delete_by_source s doc.path).1
            (ingestEntries embed doc text),
          (chunk_text text CHUNK_SIZE CHUNK_OVERLAP).length) := by
  have hadd : VectorStore.add_documents (VectorStore.delete_by_source s doc.path).1
      (chunk_text text CHUNK_SIZE CHUNK_OVERLAP)
      (embed_texts embed (chunk_text text CHUNK_SIZE CHUNK_OVERLAP))
      (chunkMetadatas doc (chunk_text text CHUNK_SIZE CHUNK_OVERLAP).length)
      (chunkIds doc.stem (chunk_text text CHUNK_SIZE CHUNK_OVERLAP).length)
      = .ok (addEntries (VectorStore.delete_by_source s doc.path).1
          (ingestEntries embed doc text)) := by
    rw [VectorStore.add_documents,
      if_neg (by simpa [List.isEmpty_iff] using hch)]
    rw [collectionAdd,
      if_pos ⟨by simp [embed_texts], by simp [chunkMetadatas], by simp [chunkIds]⟩]
    rfl
  simp only [ingest_document, hp]
  rw [if_neg htrim, if_neg hch, hadd]

theorem ingest_document_cases (parse : DocPath → Except String String)
    (embed : String → List Int) (doc : DocPath) (s : Store)
    (r : Except String (Store × Nat)) (h : ingest_document parse embed doc s = r) :
    r = .ok (s, 0) ∨
    ∃ text, parse doc = .ok text ∧ pyStrip text ≠ "" ∧
      chunk_text text CHUNK_SIZE CHUNK_OVERLAP ≠ [] ∧
      r = .ok (addEntries (VectorStore.delete_by_source s doc.path).1
            (ingestEntries embed doc text),
          (chunk_text text CHUNK_SIZE CHUNK_OVERLAP).length) := by
  cases hparse : parse doc with
  | error err =>
    left
    rw [← h]
    simp [ingest_document, hparse]
  | ok text =>
    by_cases htrim : pyStrip text = ""
    · left
      rw [← h]
      simp [ingest_document, hparse, htrim]
    · by_cases hch : chunk_text text CHUNK_SIZE CHUNK_OVERLAP = []
      · left
        rw [← h]
        simp [ingest_document, hparse, htrim, hch]
      · right
        exact ⟨text, rfl, htrim, hch,
          by rw [← h, ingest_document_run parse embed doc s text hparse htrim hch]⟩

/-- C1: re-ingestion is a delete-then-insert replace.  Ingesting the same
unchanged document again from the state a first ingestion produced returns
exactly the same store and chunk count; and after re-ingesting the document
with any (altered) content, the entries for its source are exactly the
freshly-ingested ones — no chunk of the old content remains. -/
theorem ingest_reingestion_idempotent (parse : DocPath → Except String String)
    (embed : String → List Int) (doc : DocPath) (s0 s1 : Store) (n1 : Nat)
    (h1 : ingest_document parse embed doc s0 = .ok (s1, n1)) :
    ingest_document parse embed doc s1 = .ok (s1, n1)
    ∧ (∀ (parse2 : DocPath → Except String String) (text2 : String)
        (s2 : Store) (n2 : Nat),
        parse2 doc = .ok text2 → pyStrip text2 ≠ "" →
        ingest_document parse2 embed doc s1 = .ok (s2, n2) →
        ∀ e ∈ s2, e.metadata.source = doc.path → e ∈ ingestEntries embed doc text2) := by
  constructor
  · cases hparse : parse doc with
    | error err =>
      have heq : ingest_document parse embed doc s0 = .ok (s0, 0) := by
        simp [ingest_document, hparse]
      rw [heq] at h1
      simp only [Except.ok.injEq, Prod.mk.injEq] at h1
      obtain ⟨hs, hn⟩ := h1
      subst hs hn
      simp [ingest_document, hparse]
    | ok text =>
      by_cases htrim : pyStrip text = ""
      · have heq : ingest_document parse embed doc s0 = .ok (s0, 0) := by
          simp [ingest_document, hparse, htrim]
        rw [heq] at h1
        simp only [Except.ok.injEq, Prod.mk.injEq] at h1
        obtain ⟨hs, hn⟩ := h1
        subst hs hn
        simp [ingest_document, hparse, htrim]
      · by_cases hch : chunk_text text CHUNK_SIZE CHUNK_OVERLAP = []
        · have heq : ingest_document parse embed doc s0 = .ok (s0, 0) := by
            simp [ingest_document, hparse, htrim, hch]
          rw [heq] at h1
          simp only [Except.ok.injEq, Prod.mk.injEq] at h1
          obtain ⟨hs, hn⟩ := h1
          subst hs hn
          simp [ingest_document, hparse, htrim, hch]
        · rw [ingest_document_run parse embed doc s0 text hparse htrim hch] at h1
          simp only [Except.ok.injEq, Prod.mk.injEq] at h1
          obtain ⟨hs, hn⟩ := h1
          subst hs hn
          rw [ingest_document_run parse embed doc _ text hparse htrim hch,
            addEntries_delete_idem doc.path (ingestEntries embed doc text)
              (ingestEntries_source embed doc text) s0]
  · intro parse2 text2 s2 n2 hp2 ht2 h2 e he hsrc
    have hch2 : chunk_text text2 CHUNK_SIZE CHUNK_OVERLAP ≠ [] :=
      chunk_text_ne_nil text2 (strip_ne_imp_ne_empty text2 ht2)
    rw [ingest_document_run parse2 embed doc s1 text2 hp2 ht2 hch2] at h2
    simp only [Except.ok.injEq, Prod.mk.injEq] at h2
    obtain ⟨hs, hn⟩ := h2
    rw [← hs] at he
    rcases mem_addEntries _ _ e he with hD | hnew
    · exact absurd hsrc (delete_removes_source s1 doc.path e hD)
    · exact hnew

/-- Witness fixtures for the ingestion theorems. -/
def wDoc : DocPath := ⟨"docs/notes.txt", "notes.txt", "notes"⟩

def wParse : DocPath → Except String String := fun _ => .ok "Alpha"

def wEmbed : String → List Int := fun _ => [1]

def wIngestedEntry : Entry :=
  ⟨"notes_0", "Alpha", [1], ⟨"docs/notes.txt", "notes.txt", 0, 1⟩⟩

theorem ingest_reingestion_idempotent_witness :
    ingest_document wParse wEmbed wDoc [] = .ok ([wIngestedEntry], 1)
    ∧ ingest_document wParse wEmbed wDoc [wIngestedEntry] = .ok ([wIngestedEntry], 1) := by
  have h1 : ingest_document wParse wEmbed wDoc [] = .ok ([wIngestedEntry], 1) := by rfl
  exact ⟨h1,
    (ingest_reingestion_idempotent wParse wEmbed wDoc [] [wIngestedEntry] 1 h1).1⟩

theorem digitChar_lt_ten_ne_underscore : ∀ k, k < 10 → Nat.digitChar k ≠ '_' := by
  decide

theorem toDigitsCore_succ (b fuel n : Nat) (ds : List Char) :
    Nat.toDigitsCore b (fuel + 1) n ds =
      if n / b = 0 then (n % b).digitChar :: ds
      else Nat.toDigitsCore b fuel (n / b) ((n % b).digitChar :: ds) := rfl

theorem toDigitsCore_ne_underscore :
    ∀ (fuel n : Nat) (ds : List Char), (∀ c ∈ ds, c ≠ '_') →
      ∀ c ∈ Nat.toDigitsCore 10 fuel n ds, c ≠ '_' := by
  intro fuel
  induction fuel with
  | zero => intro n ds hds c hc; exact hds c hc
  | succ fuel ih =>
    intro n ds hds c hc
    rw [toDigitsCore_succ] at hc
    have hcons : ∀ c ∈ ((n % 10).digitChar :: ds), c ≠ '_' := by
      intro c hc
      rcases List.mem_cons.mp hc with rfl | h
      · exact digitChar_lt_ten_ne_underscore (n % 10) (Nat.mod_lt n (by decide))
      · exact hds c h
    by_cases hz : n / 10 = 0
    · rw [if_pos hz] at hc
      exact hcons c hc
    · rw [if_neg hz] at hc
      exact ih (n / 10) _ hcons c hc

theorem toString_nat_ne_underscore (n : Nat) : ∀ c ∈ (toString n).data, c ≠ '_' := by
  intro c hc
  rw [show (toString n).data = Nat.toDigitsCore 10 (n + 1) n [] from rfl] at hc
  exact toDigitsCore_ne_underscore (n + 1) n [] (by intro c hc; simp at hc) c hc

theorem underscore_split_aux :
    ∀ (as bs xs ys : List Char), (∀ c ∈ as, c ≠ '_') → (∀ c ∈ bs, c ≠ '_') →
      as ++ '_' :: xs = bs ++ '_' :: ys → as = bs ∧ xs = ys := by
  intro as
  induction as with
  | nil =>
    intro bs xs ys _ hbs heq
    cases bs with
    | nil =>
      rw [List.nil_append, List.nil_append] at heq
      injection heq with _ h2
      exact ⟨rfl, h2⟩
    | cons b bs =>
      rw [List.nil_append, List.cons_append] at heq
      injection heq with h1 _
      exact absurd h1.symm (hbs b (List.mem_cons_self b bs))
  | cons a as ih =>
    intro bs xs ys has hbs heq
    cases bs with
    | nil =>
      rw [List.nil_append, List.cons_append] at heq
      injection heq with h1 _
      exact absurd h1 (has a (List.mem_cons_self a as))
    | cons b bs =>
      rw [List.cons_append, List.cons_append] at heq
      injection heq with h1 h2
      obtain ⟨hab, hxy⟩ := ih bs xs ys
        (fun c hc => has c (List.mem_cons_of_mem a hc))
        (fun c hc => hbs c (List.mem_cons_of_mem b hc)) h2
      exact ⟨by rw [h1, hab], hxy⟩

theorem chunkId_stem_eq (stem1 stem2 : String) (i j : Nat)
    (h : stem1 ++ "_" ++ toString i = stem2 ++ "_" ++ toString j) : stem1 = stem2 := by
  have hdata : stem1.data ++ '_' :: (toString i).data
      = stem2.data ++ '_' :: (toString j).data := by
    have hd := congrArg String.data h
    rw [String.data_append, String.data_append, String.data_append,
      String.data_append] at hd
    rw [show ("_" : String).data = ['_'] from rfl] at hd
    simpa [List.append_assoc] using hd
  have hrev : (toString i).data.reverse ++ '_' :: stem1.data.reverse
      = (toString j).data.reverse ++ '_' :: stem2.data.reverse := by
    have := congrArg List.reverse hdata
    simpa [List.reverse_append] using this
  obtain ⟨_, hstems⟩ := underscore_split_aux
    (toString i).data.reverse (toString j).data.reverse
    stem1.data.reverse stem2.data.reverse
    (fun c hc => toString_nat_ne_underscore i c (List.mem_reverse.mp hc))
    (fun c hc => toString_nat_ne_underscore j c (List.mem_reverse.mp hc)) hrev
  have hdata2 : stem1.data = stem2.data := by
    have := congrArg List.reverse hstems
    simpa using this
  cases stem1 with
  | mk d1 =>
    cases stem2 with
    | mk d2 =>
      rw [show (String.mk d1).data = d1 from rfl,
        show (String.mk d2).data = d2 from rfl] at hdata2
      rw [hdata2]

theorem nodup_ids_filter (s : Store) (f : Entry → Bool) (h : (idsOf s).Nodup) :
    (idsOf (s.filter f)).Nodup := by
  have hsub : ((s.filter f).map (·.id)).Sublist (s.map (·.id)) :=
    List.Sublist.map (·.id) (List.filter_sublist s)
  exact List.Pairwise.sublist hsub h

theorem nodup_ids_upsert (s : Store) (a : Entry) (h : (idsOf s).Nodup) :
    (idsOf (upsert s a)).Nodup := by
  rw [upsert, show idsOf (s.filter (fun x => x.id ≠ a.id) ++ [a])
      = idsOf (s.filter (fun x => x.id ≠ a.id)) ++ [a.id] from by simp [idsOf]]
  rw [List.nodup_append]
  refine ⟨nodup_ids_filter s _ h, List.nodup_singleton _, ?_⟩
  intro x hx
  obtain ⟨e, he, rfl⟩ := List.mem_map.mp hx
  have := (List.mem_filter.mp he).2
  simp only [decide_eq_true_eq] at this
  simpa using this

theorem nodup_ids_addEntries :
    ∀ (es : List Entry) (s : Store), (idsOf s).Nodup → (idsOf (addEntries s es)).Nodup := by
  intro es
  induction es with
  | nil => intro s h; exact h
  | cons a es ih => intro s h; exact ih (upsert s a) (nodup_ids_upsert s a h)

theorem nodup_ids_delete (s : Store) (p : String) (h : (idsOf s).Nodup) :
    (idsOf (VectorStore.delete_by_source s p).1).Nodup := by
  simp only [VectorStore.delete_by_source]
  by_cases hempty : ((s.filter (fun x => x.metadata.source = p)).map (·.id)).isEmpty
  · rw [if_pos hempty]
    exact h
  · rw [if_neg hempty]
    exact nodup_ids_filter s _ h

theorem nodup_ids_ingest (parse : DocPath → Except String String)
    (embed : String → List Int) (doc : DocPath) (s s' : Store) (n : Nat)
    (h : ingest_document parse embed doc s = .ok (s', n))
    (hnd : (idsOf s).Nodup) : (idsOf s').Nodup := by
  rcases ingest_document_cases parse embed doc s _ h with hskip | ⟨text, _, _, _, hrun⟩
  · simp only [Except.ok.injEq, Prod.mk.injEq] at hskip
    rw [hskip.1]
    exact hnd
  · simp only [Except.ok.injEq, Prod.mk.injEq] at hrun
    rw [hrun.1]
    exact nodup_ids_addEntries _ _ (nodup_ids_delete s doc.path hnd)

theorem mem_delete_of_source_ne (s : Store) (p : String) (e : Entry)
    (hnd : (idsOf s).Nodup) (he : e ∈ s) (hne : e.metadata.source ≠ p) :
    e ∈ (VectorStore.delete_by_source s p).1 := by
  simp only [VectorStore.delete_by_source]
  by_cases hempty : ((s.filter (fun x => x.metadata.source = p)).map (·.id)).isEmpty
  · rw [if_pos hempty]
    exact he
  · rw [if_neg hempty]
    refine List.mem_filter.mpr ⟨he, ?_⟩
    simp only [decide_eq_true_eq]
    intro hid
    obtain ⟨f, hf, hfid⟩ := List.mem_map.mp hid
    obtain ⟨hfs, hfsrc⟩ := List.mem_filter.mp hf
    have hfe : f = e := List.inj_on_of_nodup_map hnd hfs he hfid
    rw [hfe] at hfsrc
    exact hne (by simpa using hfsrc)

/-- Counterexample fixtures: two documents with distinct source paths but
the same stem `notes`. -/
def cDocA : DocPath := ⟨"docs/a/notes.txt", "notes.txt", "notes"⟩

def cDocB : DocPath := ⟨"docs/b/notes.txt", "notes.txt", "notes"⟩

def cParse : DocPath → Except String String :=
  fun d => if d.path = "docs/a/notes.txt" then .ok "Alpha" else .ok "Bravo"

def cEntryA : Entry := ⟨"notes_0", "Alpha", [1], ⟨"docs/a/notes.txt", "notes.txt", 0, 1⟩⟩

def cEntryB : Entry := ⟨"notes_0", "Bravo", [1], ⟨"docs/b/notes.txt", "notes.txt", 0, 1⟩⟩

/-- C4 counterexample: ingesting two documents with distinct source paths
(`docs/a/notes.txt` then `docs/b/notes.txt`) whose stems coincide makes the
second overwrite the first's chunk: after the second ingestion the first
document's entry is gone and no entry for its source remains. -/
theorem distinct_paths_same_stem_overwrite :
    cDocA.path ≠ cDocB.path
    ∧ ingest_document cParse wEmbed cDocA [] = .ok ([cEntryA], 1)
    ∧ ingest_document cParse wEmbed cDocB [cEntryA] = .ok ([cEntryB], 1)
    ∧ cEntryA ∉ ([cEntryB] : Store)
    ∧ ([cEntryB] : Store).filter (fun e => e.metadata.source = cDocA.path) = [] := by
  exact ⟨by decide, by rfl, by rfl, by decide, by rfl⟩

/-- C4 amended: chunk ids are `{sourceStem}_{chunkIndex}`, and ingesting a
second document never overwrites a first document's chunks provided the two
documents' stems (not merely their paths) differ; the counterexample shows
equal stems with distinct paths do collide. -/
theorem ingest_ids_distinct_stems_no_overwrite
    (parse1 parse2 : DocPath → Except String String)
    (embed1 embed2 : String → List Int) (doc1 doc2 : DocPath)
    (s0 s1 s2 : Store) (n1 n2 : Nat)
    (hnd : (idsOf s0).Nodup) (hstem : doc1.stem ≠ doc2.stem)
    (hpath : doc1.path ≠ doc2.path)
    (h1 : ingest_document parse1 embed1 doc1 s0 = .ok (s1, n1)) (hn1 : 0 < n1)
    (h2 : ingest_document parse2 embed2 doc2 s1 = .ok (s2, n2)) :
    ∀ e ∈ s1, e.metadata.source = doc1.path →
      (∃ i, i < n1 ∧ e.id = doc1.stem ++ "_" ++ toString i) ∧ e ∈ s2 := by
  rcases ingest_document_cases parse1 embed1 doc1 s0 _ h1 with
    hskip | ⟨text1, hp1, ht1, hc1, hrun1⟩
  · simp only [Except.ok.injEq, Prod.mk.injEq] at hskip
    omega
  · simp only [Except.ok.injEq, Prod.mk.injEq] at hrun1
    obtain ⟨hs1, hn1eq⟩ := hrun1
    intro e he hsrc
    have henew : e ∈ ingestEntries embed1 doc1 text1 := by
      rw [hs1] at he
      rcases mem_addEntries _ _ e he with hD | hnew
      · exact absurd hsrc (delete_removes_source s0 doc1.path e hD)
      · exact hnew
    have hid : ∃ i, i < n1 ∧ e.id = doc1.stem ++ "_" ++ toString i := by
      obtain ⟨i, hi, hieq⟩ := ingestEntries_id_shape embed1 doc1 text1 e henew
      exact ⟨i, by omega, hieq⟩
    refine ⟨hid, ?_⟩
    have hnd1 : (idsOf s1).Nodup := nodup_ids_ingest parse1 embed1 doc1 s0 s1 n1 h1 hnd
    rcases ingest_document_cases parse2 embed2 doc2 s1 _ h2 with
      hskip2 | ⟨text2, hp2, ht2, hc2, hrun2⟩
    · simp only [Except.ok.injEq, Prod.mk.injEq] at hskip2
      rw [hskip2.1]
      exact he
    · simp only [Except.ok.injEq, Prod.mk.injEq] at hrun2
      rw [hrun2.1]
      apply mem_addEntries_of_not_mem_ids
      · exact mem_delete_of_source_ne s1 doc2.path e hnd1 he (by rw [hsrc]; exact hpath)
      · intro hmem
        obtain ⟨f, hf, hfid⟩ := List.mem_map.mp hmem
        obtain ⟨j, _, hjeq⟩ := ingestEntries_id_shape embed2 doc2 text2 f hf
        obtain ⟨i, _, hieq⟩ := hid
        exact hstem (chunkId_stem_eq doc1.stem doc2.stem i j (by rw [← hieq, ← hfid, hjeq]))

def w2Doc : DocPath := ⟨"docs/memo.txt", "memo.txt", "memo"⟩

def w2Parse : DocPath → Except String String :=
  fun d => if d.path = "docs/notes.txt" then .ok "Alpha" else .ok "Bravo"

def w2EntryMemo : Entry := ⟨"memo_0", "Bravo", [1], ⟨"docs/memo.txt", "memo.txt", 0, 1⟩⟩

theorem ingest_ids_distinct_stems_no_overwrite_witness :
    (idsOf ([] : Store)).Nodup
    ∧ wDoc.stem ≠ w2Doc.stem
    ∧ wDoc.path ≠ w2Doc.path
    ∧ ingest_document w2Parse wEmbed wDoc [] = .ok ([wIngestedEntry], 1)
    ∧ (0 : Nat) < 1
    ∧ ingest_document w2Parse wEmbed w2Doc [wIngestedEntry]
        = .ok ([wIngestedEntry, w2EntryMemo], 1)
    ∧ (∀ e ∈ ([wIngestedEntry] : Store), e.metadata.source = wDoc.path →
        (∃ i, i < 1 ∧ e.id = wDoc.stem ++ "_" ++ toString i)
          ∧ e ∈ ([wIngestedEntry, w2EntryMemo] : Store)) := by
  refine ⟨by decide, by decide, by decide, by rfl, by decide, by rfl, ?_⟩
  exact ingest_ids_distinct_stems_no_overwrite w2Parse w2Parse wEmbed wEmbed
    wDoc w2Doc [] [wIngestedEntry] [wIngestedEntry, w2EntryMemo] 1 1
    (by decide) (by decide) (by decide) (by rfl) (by decide) (by rfl)

theorem ingest_document_failing (parse : DocPath → Except String String)
    (embed : String → List Int) (doc : DocPath)
    (hbad : (∃ msg, parse doc = .error msg)
      ∨ (∃ t, parse doc = .ok t ∧ pyStrip t = "")) :
    ∀ s, ingest_document parse embed doc s = .ok (s, 0) := by
  intro s
  rcases hbad with ⟨msg, hmsg⟩ | ⟨t, ht, htrim⟩
  · simp [ingest_document, hmsg]
  · simp [ingest_document, ht, htrim]

theorem ingestLoop_skip_bad (parse : DocPath → Except String String)
    (embed : String → List Int) (bad : DocPath)
    (hbad : ∀ s, ingest_document parse embed bad s = .ok (s, 0)) :
    ∀ pre post s succ tot,
      ingestLoop parse embed (pre ++ bad :: post) s succ tot
        = ingestLoop parse embed (pre ++ post) s succ tot := by
  intro pre
  induction pre with
  | nil =>
    intro post s succ tot
    rw [List.nil_append, List.nil_append]
    simp only [ingestLoop]
    rw [hbad s]
    simp
  | cons d pre ih =>
    intro post s succ tot
    rw [List.cons_append, List.cons_append]
    simp only [ingestLoop]
    cases hd : ingest_document parse embed d s with
    | error e => rfl
    | ok p =>
      obtain ⟨s2, n⟩ := p
      exact ih post s2 _ _

/-- C5: a document whose parse fails (or whose extracted text is
whitespace-only) is skipped with zero chunks and an unchanged store, and
the batch proceeds over the remaining documents exactly as if the bad
document were absent — same final store, same processed count, same chunk
total — while it is still counted among the documents found. -/
theorem batch_partial_failure_isolation (parse : DocPath → Except String String)
    (embed : String → List Int) (bad : DocPath) (pre post : List DocPath) (s : Store)
    (hbad : (∃ msg, parse bad = .error msg)
      ∨ (∃ t, parse bad = .ok t ∧ pyStrip t = "")) :
    (∀ s', ingest_document parse embed bad s' = .ok (s', 0))
    ∧ ingest_all_documents parse embed (pre ++ bad :: post) s
        = (ingest_all_documents parse embed (pre ++ post) s).map
            (fun r => (r.1, r.2.1 + 1, r.2.2.1, r.2.2.2)) := by
  have hskip := ingest_document_failing parse embed bad hbad
  refine ⟨hskip, ?_⟩
  rw [ingest_all_documents, ingest_all_documents]
  have hne : ¬((pre ++ bad :: post).isEmpty = true) := by
    simp
  rw [if_neg hne]
  by_cases hpp : (pre ++ post).isEmpty = true
  · have hboth := List.append_eq_nil.mp (List.isEmpty_iff.mp hpp)
    obtain ⟨hpre0, hpost0⟩ := hboth
    subst hpre0 hpost0
    rw [if_pos hpp]
    simp only [List.nil_append, ingestLoop]
    rw [hskip s]
    simp [Except.map]
  · rw [if_neg hpp]
    rw [ingestLoop_skip_bad parse embed bad hskip pre post s 0 0]
    cases hl : ingestLoop parse embed (pre ++ post) s 0 0 with
    | error e => rfl
    | ok r =>
      obtain ⟨s2, succ, tot⟩ := r
      have hlen : (pre ++ bad :: post).length = (pre ++ post).length + 1 := by
        simp only [List.length_append, List.length_cons]
        omega
      simp [Except.map, hlen]

def w5Bad : DocPath := ⟨"docs/bad.pdf", "bad.pdf", "bad"⟩

def w5Parse : DocPath → Except String String :=
  fun d => if d.path = "docs/bad.pdf" then .error "ParseError" else .ok "Alpha"

theorem batch_partial_failure_isolation_witness :
    ((∃ msg, w5Parse w5Bad = .error msg)
      ∨ (∃ t, w5Parse w5Bad = .ok t ∧ pyStrip t = ""))
    ∧ (∀ s', ingest_document w5Parse wEmbed w5Bad s' = .ok (s', 0))
    ∧ ingest_all_documents w5Parse wEmbed ([wDoc] ++ w5Bad :: [w2Doc]) []
        = (ingest_all_documents w5Parse wEmbed ([wDoc] ++ [w2Doc]) []).map
            (fun r => (r.1, r.2.1 + 1, r.2.2.1, r.2.2.2)) := by
  have hbad : (∃ msg, w5Parse w5Bad = .error msg)
      ∨ (∃ t, w5Parse w5Bad = .ok t ∧ pyStrip t = "") :=
    Or.inl ⟨"ParseError", rfl⟩
  obtain ⟨h1, h2⟩ :=
    batch_partial_failure_isolation w5Parse wEmbed w5Bad [wDoc] [w2Doc] [] hbad
  exact ⟨hbad, h1, h2⟩

/-- The fixed short-circuit answer of `QueryEngine.query` (`src/query.py`)
when retrieval produced no context. -/
def insufficient_info_response : String :=
  "I couldn\x27t find any relevant information in your documents. Make sure you\x27ve ingested some documents first."

/-- The hint appended to the rendered LLM failure (`src/query.py`). -/
def llm_error_hint : String :=
  "\n\nMake sure Ollama is running (ollama serve) or your OpenAI key is set."

/-- One retrieved context row of `QueryEngine.retrieve_context`:
text, source label (the metadata filename) and distance. -/
structure RetrievedContext where
  text : String
  source : String
  distance : Int
deriving DecidableEq, Repr

/-- `QueryEngine.retrieve_context` (`src/query.py`): embed the question,
query the vector store, keep text, filename and distance. -/
def retrieve_context (embed : String → List Int) (s : Store) (question : String)
    (top_k : Nat) : List RetrievedContext :=
  (VectorStore.query s (embed question) top_k none).map
    (fun r => ⟨r.1, r.2.1.filename, r.2.2⟩)

/-- `QueryEngine.build_prompt` (`src/query.py`): numbered, source-attributed
context blocks substituted into the fixed template together with the
question. -/
def build_prompt (question : String) (contexts : List RetrievedContext) : String :=
  "Context from your documents:\n---\n"
    ++ String.intercalate "\n\n"
        ((List.enumFrom 1 contexts).map
          (fun p => "[" ++ toString p.1 ++ "] From " ++ p.2.source ++ ":\n" ++ p.2.text))
    ++ "\n---\n\nQuestion: " ++ question ++ "\n\nAnswer based on the context above:"

/-- `QueryEngine.query` (`src/query.py`): retrieve, short-circuit on empty
context, delegate to the generation collaborator (`llm`, external; its
`Except.error` models a raised exception), render a failure as a
user-visible string, optionally append the deduplicated source labels. -/
def QueryEngine.query (embed : String → List Int) (llm : String → Except String String)
    (s : Store) (question : String) (top_k : Nat) (show_sources : Bool) : String :=
  if (retrieve_context embed s question top_k).isEmpty then insufficient_info_response
  else
    match llm (build_prompt question (retrieve_context embed s question top_k)) with
    | .error e => "Error getting LLM response: " ++ e ++ llm_error_hint
    | .ok answer =>
      if show_sources then
        answer ++ "\n\nSources: "
          ++ String.intercalate ", "
              ((retrieve_context embed s question top_k).map (·.source)).dedup
      else answer

/-- C6: the query path always returns a string (it is a total function of
its inputs): with no retrieved context it returns the fixed
insufficient-information response whatever the generation collaborator is
(generation is never invoked), and when the generation collaborator fails
the failure is rendered into the returned string instead of propagating. -/
theorem query_path_total (embed : String → List Int)
    (llm : String → Except String String) (s : Store) (question : String)
    (top_k : Nat) (show_sources : Bool) :
    (retrieve_context embed s question top_k = [] →
      ∀ llm2 : String → Except String String,
        QueryEngine.query embed llm2 s question top_k show_sources
          = insufficient_info_response)
    ∧ (∀ e, retrieve_context embed s question top_k ≠ [] →
        llm (build_prompt question (retrieve_context embed s question top_k))
          = .error e →
        QueryEngine.query embed llm s question top_k show_sources
          = "Error getting LLM response: " ++ e ++ llm_error_hint) := by
  constructor
  · intro hempty llm2
    rw [QueryEngine.query, if_pos (by rw [hempty]; rfl)]
  · intro e hne herr
    rw [QueryEngine.query, if_neg (by simpa [List.isEmpty_iff] using hne), herr]

def w6Llm : String → Except String String := fun _ => .error "boom"

theorem query_path_total_witness :
    retrieve_context wEmbed ([] : Store) "q" 5 = []
    ∧ QueryEngine.query wEmbed w6Llm [] "q" 5 true = insufficient_info_response
    ∧ retrieve_context wEmbed wStore "q" 5 ≠ []
    ∧ QueryEngine.query wEmbed w6Llm wStore "q" 5 true
        = "Error getting LLM response: " ++ "boom" ++ llm_error_hint := by
  have hemp : retrieve_context wEmbed ([] : Store) "q" 5 = [] := rfl
  have hne : retrieve_context wEmbed wStore "q" 5 ≠ [] := by decide
  exact ⟨hemp, (query_path_total wEmbed w6Llm [] "q" 5 true).1 hemp w6Llm, hne,
    (query_path_total wEmbed w6Llm wStore "q" 5 true).2 "boom" hne rfl⟩

theorem splitter_config_validation_witness :
    ((¬((0 : Int) ≤ 500 ∧ (500 : Int) < 500)) ↔
      chunk_text_checked "t" 500 500
        = .error "ConfigurationError: invalid chunk size/overlap")
    ∧ (((0 : Int) ≤ 500 ∧ (500 : Int) < 500) ↔
      chunk_text_checked "t" 500 500
        = .ok (chunk_text "t" (500 : Int).toNat (500 : Int).toNat)) :=
  splitter_config_validation "t" 500 500
